import Mathlib

/-! # Verification of the BuffeRS multi-buffer text editor

Shallow embedding of `src/main.rs`.  Text (`String` in the Rust source) is
modelled as `List Char`; the `HashMap<String, BufferEditor>` registry is an
association list kept in insertion order (the source relies only on key
lookup, `entry(..).or_insert(..)` and value iteration); the `i32` anonymous
counter is a `Nat` (it starts at 0 and only ever moves forward one probe per
occupied key, so `i32` overflow would need more than 2^31 registry entries);
the termgame `Game` handle is reduced to the fields the source touches:
the viewport `y` coordinate, the end-game flag, and the published chunk map.
-/

/-- Decimal digit characters of `n`, most significant first; fuel-based mirror
of the rendering performed by Rust's `format!("{}", n)` for a nonnegative
value.  Fuel `n + 1` always suffices because `n / 10 < n` for `n > 0`. -/
def natToDecAux : Nat → Nat → List Char
  | 0, _ => []
  | fuel + 1, n => if n = 0 then [] else natToDecAux fuel (n / 10) ++ [Nat.digitChar (n % 10)]

/-- Decimal rendering of `n`, as produced by `format!("{}", n)`. -/
def natToDec (n : Nat) : List Char :=
  if n = 0 then ['0'] else natToDecAux (n + 1) n

/-- Accumulator step reading a decimal digit character back into a number;
used only to prove that `natToDec` is injective. -/
def foldDecStep (acc : Nat) (c : Char) : Nat := acc * 10 + (c.toNat - 48)

/-- The anonymous buffer name `buffer_<n>` synthesised in `fetch_editor`. -/
def anonName (n : Nat) : List Char := "buffer_".toList ++ natToDec n

/-- Mirror of `struct Buffer { text: String, file: Option<String> }`. -/
structure Buffer where
  text : List Char
  file : Option (List Char)
  deriving DecidableEq

/-- `Buffer::new(file)`: empty text with the given storage identifier. -/
def Buffer.new (file : Option (List Char)) : Buffer :=
  { text := [], file := file }

/-- `Buffer::push_char`: `self.text.push(c)`. -/
def Buffer.pushChar (b : Buffer) (c : Char) : Buffer :=
  { b with text := b.text ++ [c] }

/-- `Buffer::pop_char`: `self.text.pop()` removes and returns the last
character, or returns `None` on an empty buffer. -/
def Buffer.popChar (b : Buffer) : Option Char × Buffer :=
  match b.text.getLast? with
  | some c => (some c, { b with text := b.text.dropLast })
  | none => (none, b)

/-- The cells inserted by `Buffer::chunkmap_from_textarea`, in insertion
order: each character is written at `(col, line)`, `col` advances by one, and
after a newline the walk continues at column 0 of the next line.  The newline
character itself is inserted like any other character. -/
def projectAux : List Char → Nat → Nat → List (Nat × Nat × Char)
  | [], _, _ => []
  | c :: cs, col, line =>
    (col, line, c) ::
      (if c = '\n' then projectAux cs 0 (line + 1) else projectAux cs (col + 1) line)

/-- `Buffer::chunkmap_from_textarea`, started from `(line, col) = (0, 0)`. -/
def Buffer.chunkmapFromTextarea (b : Buffer) : List (Nat × Nat × Char) :=
  projectAux b.text 0 0

/-- The row coordinates of a cell list (second component of each key). -/
def cellRows (cells : List (Nat × Nat × Char)) : List Nat :=
  cells.map (fun cell => cell.2.1)

/-- One pass of the Control+'f' loop, seen from the back of the text:
keep popping until a popped character is a newline or nothing is left. -/
def clearLineAux : List Char → List Char
  | [] => []
  | c :: cs => if c = '\n' then cs else clearLineAux cs

/-- The Control+'f' handler: repeatedly `pop_char` until `Some('\n')` or
`None` is returned. -/
def Buffer.clearLine (b : Buffer) : Buffer :=
  { b with text := (clearLineAux b.text.reverse).reverse }

/-- Mirror of `struct BufferEditor { buffer: Buffer }`. -/
structure BufferEditor where
  buffer : Buffer
  deriving DecidableEq

/-- The slice of the termgame `Game` handle that `on_event` touches:
the viewport `y` coordinate (an `i32` in termgame, modelled as `Int`),
the end-game flag, and the currently published chunk map. -/
structure GameState where
  viewportY : Int
  ended : Bool
  chunkmap : List (Nat × Nat × Char)
  deriving DecidableEq

/-- The game state at the start of a modal session: viewport at the top,
not ended, nothing published yet. -/
def initGame : GameState :=
  { viewportY := 0, ended := false, chunkmap := [] }

/-- The classified key events of `BufferEditor::on_event`'s match. -/
inductive KeyEvent where
  | char : Char → KeyEvent
  | enter : KeyEvent
  | esc : KeyEvent
  | up : KeyEvent
  | down : KeyEvent
  | ctrlS : KeyEvent
  | ctrlF : KeyEvent
  | backspace : KeyEvent
  | other : KeyEvent
  deriving DecidableEq

/-- `BufferEditor::on_event`: the event match, followed unconditionally by a
re-projection of the buffer into a fresh chunk map that is handed to the
game (`swap_chunkmap`). -/
def onEvent (ed : BufferEditor) (g : GameState) (e : KeyEvent) : BufferEditor × GameState :=
  let step : BufferEditor × GameState :=
    match e with
    | .char c => ({ buffer := ed.buffer.pushChar c }, g)
    | .enter => ({ buffer := ed.buffer.pushChar '\n' }, g)
    | .esc => (ed, { g with ended := true })
    | .up =>
        (ed, { g with viewportY := if 0 < g.viewportY then g.viewportY - 1 else g.viewportY })
    | .down => (ed, { g with viewportY := g.viewportY + 1 })
    | .ctrlS => (ed, g)
    | .ctrlF => ({ buffer := ed.buffer.clearLine }, g)
    | .backspace => ({ buffer := (ed.buffer.popChar).2 }, g)
    | .other => (ed, g)
  (step.1, { step.2 with chunkmap := step.1.buffer.chunkmapFromTextarea })

/-- The modal loop run by `run_game`: feed events to `on_event` until the
supplied events are exhausted or `end_game` has been called. -/
def runEvents : BufferEditor → GameState → List KeyEvent → BufferEditor × GameState
  | ed, g, [] => (ed, g)
  | ed, g, e :: es =>
    if g.ended then (ed, g)
    else
      let p := onEvent ed g e
      runEvents p.1 p.2 es

/-- The registry `HashMap<String, BufferEditor>` as an association list. -/
abbrev Registry := List (List Char × BufferEditor)

/-- The keys of the registry. -/
def regKeys (reg : Registry) : List (List Char) := reg.map Prod.fst

/-- The values of the registry (`editors.values()`). -/
def regValues (reg : Registry) : List BufferEditor := reg.map Prod.snd

/-- Key lookup in the registry. -/
def lookupReg : Registry → List Char → Option BufferEditor
  | [], _ => none
  | kv :: rest, name => if kv.1 = name then some kv.2 else lookupReg rest name

/-- The editor inserted for a fresh name: `BufferEditor { buffer: Buffer::new(None) }`. -/
def newEditor : BufferEditor := { buffer := Buffer.new none }

/-- `editors.entry(name).or_insert(dflt)`: return the existing entry, or
insert `dflt` under `name` and return it. -/
def entryOrInsert (reg : Registry) (name : List Char) (dflt : BufferEditor) :
    BufferEditor × Registry :=
  match lookupReg reg name with
  | some ed => (ed, reg)
  | none => (dflt, reg ++ [(name, dflt)])

/-- Writing back the (in Rust, in-place) mutation of the entry named `name`. -/
def updateReg : Registry → List Char → BufferEditor → Registry
  | [], _, _ => []
  | kv :: rest, name, ed =>
    (if kv.1 = name then (kv.1, ed) else kv) :: updateReg rest name ed

/-- The anonymous-name loop of `fetch_editor`: probe `buffer_<u>`,
`buffer_<u+1>`, ... until a name is not a key.  The Rust loop is unbounded;
here it carries fuel, and the callers pass fuel `(number of keys) + 1`, which
is proved below to always find a free name before running out. -/
def synthName (keys : List (List Char)) : Nat → Nat → List Char
  | u, fuel + 1 => if anonName u ∈ keys then synthName keys (u + 1) fuel else anonName u
  | u, 0 => anonName u

/-- `first_word`: everything before the first space byte (a space byte can
only be the one-byte character `' '` in UTF-8). -/
def firstWord (s : List Char) : List Char := s.takeWhile (fun c => c != ' ')

/-- Helper for `split_whitespace`, with the current word accumulated in
reverse. -/
def wordsAux : List Char → List Char → List (List Char)
  | [], acc => if acc = [] then [] else [acc.reverse]
  | c :: cs, acc =>
    if c.isWhitespace then
      (if acc = [] then wordsAux cs [] else acc.reverse :: wordsAux cs [])
    else wordsAux cs (c :: acc)

/-- `cmd.split_whitespace().collect()` (for the ASCII commands involved,
Rust's Unicode whitespace classes and `Char.isWhitespace` agree). -/
def words (s : List Char) : List (List Char) := wordsAux s []

/-- The buffer name chosen by `fetch_editor`: argument 1 of the command when
present, otherwise the first free anonymous name probed from 0. -/
def fetchEditorName (reg : Registry) (cmd : List Char) : List Char :=
  match (words cmd)[1]? with
  | some name => name
  | none => synthName (regKeys reg) 0 (reg.length + 1)

/-- `fetch_editor`: choose the name, then `entry(name).or_insert(new)`.
Returns the fetched editor, the chosen name and the updated registry. -/
def fetchEditor (reg : Registry) (cmd : List Char) : BufferEditor × List Char × Registry :=
  let name := fetchEditorName reg cmd
  let p := entryOrInsert reg name newEditor
  (p.1, name, p.2)

/-- Boolean test that `pat` starts `l` (plain structural recursion). -/
def isPrefixOfB : List Char → List Char → Bool
  | [], _ => true
  | _ :: _, [] => false
  | a :: as, b :: bs => a == b && isPrefixOfB as bs

/-- Rust `str::contains` with a literal substring pattern:
`containsSub hay needle` holds when `needle` occurs contiguously in `hay`. -/
def containsSub : List Char → List Char → Bool
  | [], needle => isPrefixOfB needle []
  | c :: rest, needle => isPrefixOfB needle (c :: rest) || containsSub rest needle

/-- Helper for `str::lines`: split on `'\n'`, current segment accumulated in
reverse. -/
def splitNlAux : List Char → List Char → List (List Char)
  | [], acc => [acc.reverse]
  | c :: cs, acc => if c = '\n' then acc.reverse :: splitNlAux cs [] else splitNlAux cs (c :: acc)

/-- Helper for `str::lines`: strip one trailing carriage return. -/
def stripCr (p : List Char) : List Char :=
  if p.getLast? = some '\r' then p.dropLast else p

/-- Rust `str::lines`: split on `'\n'`, drop the final empty segment produced
by a trailing newline, strip one trailing `'\r'` from each line. -/
def rustLines (l : List Char) : List (List Char) :=
  if l = [] then []
  else
    (if l.getLast? = some '\n' then (splitNlAux l []).dropLast else splitNlAux l []).map stripCr

/-- The search term computed by `print_buffer_searches`: the slice
`&cmd[index_rest..]` with `index_rest = first_word.len() - 1` (for the ASCII
verb `"search"` byte indices and character indices agree). -/
def searchTermOf (cmd : List Char) : List Char :=
  cmd.drop ((firstWord cmd).length - 1)

/-- The lines printed by `print_buffer_searches` (each is printed prefixed
with `"found: "`): for every editor in registry order, the lines of its
buffer that contain the search term. -/
def searchMatches (reg : Registry) (cmd : List Char) : List (List Char) :=
  (regValues reg).flatMap
    (fun ed => (rustLines ed.buffer.text).filter (fun line => containsSub line (searchTermOf cmd)))

/-- The message printed by the catch-all arm of `run_command`. -/
def notRecognisedMsg : List Char := "Command not recognised".toList

/-- `run_command`: dispatch on the first word.  `open` fetches (or creates)
the named or anonymous editor, runs the modal loop on it, and writes the
mutated editor back; `search` prints the matching lines; anything else
prints the fixed not-recognised message.  All three arms reach the final
`Ok(())` — the `Except` layer mirrors the `Result` return type, whose error
case could only arise inside the out-of-scope terminal driver. -/
def runCommand (reg : Registry) (cmd : List Char) (evs : List KeyEvent) :
    Except (List Char) (Registry × List (List Char)) :=
  if firstWord cmd = "open".toList then
    let f := fetchEditor reg cmd
    Except.ok (updateReg f.2.2 f.2.1 (runEvents f.1 initGame evs).1, [])
  else if firstWord cmd = "search".toList then
    Except.ok (reg, (searchMatches reg cmd).map (fun l => "found: ".toList ++ l))
  else
    Except.ok (reg, [notRecognisedMsg])

/-- The registry after a command (the `Err` arm is unreachable). -/
def runCommandState (reg : Registry) (cmd : List Char) (evs : List KeyEvent) : Registry :=
  match runCommand reg cmd evs with
  | .ok p => p.1
  | .error _ => reg

/-- The lines printed by a command. -/
def runCommandOut (reg : Registry) (cmd : List Char) (evs : List KeyEvent) : List (List Char) :=
  match runCommand reg cmd evs with
  | .ok p => p.2
  | .error _ => []

/-- Whether a command returned `Ok`. -/
def runCommandOk (reg : Registry) (cmd : List Char) (evs : List KeyEvent) : Bool :=
  match runCommand reg cmd evs with
  | .ok _ => true
  | .error _ => false

/-- The command loop of `main`: run a sequence of commands, each with the
events its modal session (if any) consumes. -/
def runCommands : Registry → List (List Char × List KeyEvent) → Registry
  | reg, [] => reg
  | reg, c :: rest => runCommands (runCommandState reg c.1 c.2) rest

/-- The two-buffer registry named in the spec's search property. -/
def regC1 : Registry :=
  [("a".toList, { buffer := { text := "foo\nbar".toList, file := none } }),
   ("b".toList, { buffer := { text := "barfoo\n".toList, file := none } })]

/-- Keystrokes of the persistence scenario: type "hi", Enter, "there", Escape. -/
def notesEvents : List KeyEvent :=
  [KeyEvent.char 'h', KeyEvent.char 'i', KeyEvent.enter,
   KeyEvent.char 't', KeyEvent.char 'h', KeyEvent.char 'e', KeyEvent.char 'r',
   KeyEvent.char 'e', KeyEvent.esc]

/-- Registry after `open notes` and the scenario keystrokes. -/
def notesReg1 : Registry := runCommandState [] ("open notes".toList) notesEvents

/-- Registry after re-opening `notes` and immediately leaving. -/
def notesReg2 : Registry := runCommandState notesReg1 ("open notes".toList) [KeyEvent.esc]

/-- A registry whose keys `buffer_0` and `buffer_1` are pre-occupied. -/
def regPre : Registry := [("buffer_0".toList, newEditor), ("buffer_1".toList, newEditor)]

/-! ## Helper lemmas -/

theorem digitChar_sub48 : ∀ d, d < 10 → (Nat.digitChar d).toNat - 48 = d := by decide

theorem decode_natToDecAux : ∀ fuel n, n < fuel →
    List.foldl foldDecStep 0 (natToDecAux fuel n) = n := by
  intro fuel
  induction fuel with
  | zero => intro n h; omega
  | succ fuel ih =>
    intro n h
    by_cases hn : n = 0
    · subst hn; simp [natToDecAux]
    · have hdiv : n / 10 < n := Nat.div_lt_self (Nat.pos_of_ne_zero hn) (by omega)
      have h10 : n % 10 < 10 := Nat.mod_lt _ (by omega)
      rw [natToDecAux, if_neg hn, List.foldl_append]
      rw [ih (n / 10) (by omega)]
      simp only [List.foldl_cons, List.foldl_nil, foldDecStep, digitChar_sub48 _ h10]
      omega

theorem decode_natToDec (n : Nat) : List.foldl foldDecStep 0 (natToDec n) = n := by
  by_cases hn : n = 0
  · subst hn; decide
  · rw [natToDec, if_neg hn]
    exact decode_natToDecAux _ n (by omega)

theorem natToDec_inj {a b : Nat} (h : natToDec a = natToDec b) : a = b := by
  have ha := decode_natToDec a
  rw [h, decode_natToDec b] at ha
  omega

theorem anonName_inj {a b : Nat} (h : anonName a = anonName b) : a = b :=
  natToDec_inj (List.append_cancel_left h)

theorem exists_anon_free (keys : List (List Char)) (u : Nat) :
    ∃ i, i < keys.length + 1 ∧ anonName (u + i) ∉ keys := by
  by_contra hall
  push_neg at hall
  have hsub : (Finset.range (keys.length + 1)).image (fun i => anonName (u + i)) ⊆
      keys.toFinset := by
    intro x hx
    simp only [Finset.mem_image, Finset.mem_range] at hx
    obtain ⟨i, hi, rfl⟩ := hx
    exact List.mem_toFinset.2 (hall i hi)
  have hcard : ((Finset.range (keys.length + 1)).image (fun i => anonName (u + i))).card =
      keys.length + 1 := by
    rw [Finset.card_image_of_injOn, Finset.card_range]
    intro i _ j _ hij
    have := anonName_inj hij
    omega
  have h1 := Finset.card_le_card hsub
  have h2 := keys.toFinset_card_le
  omega

theorem synthName_found (keys : List (List Char)) :
    ∀ fuel u, (∃ i, i < fuel ∧ anonName (u + i) ∉ keys) →
      ∃ n, u ≤ n ∧ synthName keys u fuel = anonName n ∧ anonName n ∉ keys ∧
        ∀ m, u ≤ m → m < n → anonName m ∈ keys := by
  intro fuel
  induction fuel with
  | zero =>
    rintro u ⟨i, hi, _⟩
    omega
  | succ fuel ih =>
    rintro u ⟨i, hi, hfree⟩
    by_cases hu : anonName u ∈ keys
    · have hi0 : i ≠ 0 := by
        rintro rfl
        exact hfree hu
      obtain ⟨n, hn1, hn2, hn3, hn4⟩ := ih (u + 1)
        ⟨i - 1, by omega, by
          have hiu : u + 1 + (i - 1) = u + i := by omega
          rw [hiu]; exact hfree⟩
      refine ⟨n, by omega, ?_, hn3, ?_⟩
      · rw [synthName, if_pos hu]; exact hn2
      · intro m hm1 hm2
        by_cases hmu : m = u
        · subst hmu; exact hu
        · exact hn4 m (by omega) hm2
    · exact ⟨u, le_refl u, by rw [synthName, if_neg hu], hu, by intro m h1 h2; omega⟩

theorem synthName_spec (keys : List (List Char)) (u : Nat) :
    ∃ n, u ≤ n ∧ synthName keys u (keys.length + 1) = anonName n ∧ anonName n ∉ keys ∧
      ∀ m, u ≤ m → m < n → anonName m ∈ keys :=
  synthName_found keys (keys.length + 1) u (exists_anon_free keys u)

theorem regKeys_cons (kv : List Char × BufferEditor) (rest : Registry) :
    regKeys (kv :: rest) = kv.1 :: regKeys rest := rfl

theorem regValues_cons (kv : List Char × BufferEditor) (rest : Registry) :
    regValues (kv :: rest) = kv.2 :: regValues rest := rfl

theorem lookupReg_eq_none {reg : Registry} {name : List Char} :
    lookupReg reg name = none ↔ name ∉ regKeys reg := by
  induction reg with
  | nil => simp [lookupReg, regKeys]
  | cons kv rest ih =>
    rw [lookupReg, regKeys_cons]
    by_cases h : kv.1 = name
    · rw [if_pos h]
      simp only [List.mem_cons]
      constructor
      · intro hc; cases hc
      · intro hc; exact absurd (Or.inl h.symm) hc
    · rw [if_neg h, ih]
      simp only [List.mem_cons]
      constructor
      · intro hc hmem
        rcases hmem with hmem | hmem
        · exact h hmem.symm
        · exact hc hmem
      · intro hc hmem
        exact hc (Or.inr hmem)

theorem regKeys_updateReg (reg : Registry) (name : List Char) (ed : BufferEditor) :
    regKeys (updateReg reg name ed) = regKeys reg := by
  induction reg with
  | nil => rfl
  | cons kv rest ih =>
    rw [updateReg]
    by_cases h : kv.1 = name
    · rw [if_pos h, regKeys_cons, regKeys_cons, ih]
    · rw [if_neg h, regKeys_cons, regKeys_cons, ih]

theorem mem_values_updateReg {reg : Registry} {name : List Char} {e' ed : BufferEditor}
    (h : ed ∈ regValues (updateReg reg name e')) : ed ∈ regValues reg ∨ ed = e' := by
  induction reg with
  | nil => simp [updateReg, regValues] at h
  | cons kv rest ih =>
    rw [updateReg] at h
    by_cases hk : kv.1 = name
    · rw [if_pos hk, regValues_cons] at h
      rcases List.mem_cons.1 h with h1 | h1
      · right; exact h1
      · rcases ih h1 with h2 | h2
        · left; rw [regValues_cons]; exact List.mem_cons.2 (Or.inr h2)
        · right; exact h2
    · rw [if_neg hk, regValues_cons] at h
      rcases List.mem_cons.1 h with h1 | h1
      · left; rw [regValues_cons]; exact List.mem_cons.2 (Or.inl h1)
      · rcases ih h1 with h2 | h2
        · left; rw [regValues_cons]; exact List.mem_cons.2 (Or.inr h2)
        · right; exact h2

theorem onEvent_file (ed : BufferEditor) (g : GameState) (e : KeyEvent) :
    ((onEvent ed g e).1).buffer.file = ed.buffer.file := by
  cases e
  case backspace =>
    cases h : ed.buffer.text.getLast? <;> simp [onEvent, Buffer.popChar, h]
  all_goals simp [onEvent, Buffer.pushChar, Buffer.clearLine]

theorem runEvents_file : ∀ (evs : List KeyEvent) (ed : BufferEditor) (g : GameState),
    ((runEvents ed g evs).1).buffer.file = ed.buffer.file := by
  intro evs
  induction evs with
  | nil => intro ed g; rfl
  | cons e es ih =>
    intro ed g
    rw [runEvents]
    by_cases hg : g.ended
    · simp [hg]
    · simp only [hg, if_false, Bool.false_eq_true]
      rw [ih]
      exact onEvent_file ed g e

theorem clearLineAux_spec : ∀ r : List Char,
    (clearLineAux r = [] ∧ r.count '\n' = 0) ∨
      ∃ t q, r = t ++ '\n' :: q ∧ t.count '\n' = 0 ∧ clearLineAux r = q := by
  intro r
  induction r with
  | nil => left; exact ⟨rfl, rfl⟩
  | cons c cs ih =>
    by_cases hc : c = '\n'
    · subst hc
      right
      exact ⟨[], cs, rfl, rfl, by rw [clearLineAux, if_pos rfl]⟩
    · rcases ih with ⟨h1, h2⟩ | ⟨t, q, h1, h2, h3⟩
      · left
        refine ⟨by rw [clearLineAux, if_neg hc]; exact h1, ?_⟩
        rw [List.count_cons, h2]
        simp [hc]
      · right
        refine ⟨c :: t, q, by rw [h1]; rfl, ?_, by rw [clearLineAux, if_neg hc]; exact h3⟩
        rw [List.count_cons, h2]
        simp [hc]

theorem projectAux_rows : ∀ (cs : List Char), cs ≠ [] → ∀ (col line : Nat),
    (cellRows (projectAux cs col line)).toFinset =
      Finset.Icc line (line + cs.dropLast.count '\n') := by
  intro cs
  induction cs with
  | nil => intro h; exact absurd rfl h
  | cons c cs ih =>
    intro _ col line
    cases cs with
    | nil =>
      by_cases hc : c = '\n' <;>
        simp [projectAux, cellRows, hc, Finset.Icc_self, List.dropLast]
    | cons d ds =>
      have hne : d :: ds ≠ [] := by simp
      have hdl : (c :: d :: ds).dropLast = c :: (d :: ds).dropLast := rfl
      by_cases hc : c = '\n'
      · subst hc
        rw [projectAux, if_pos rfl]
        rw [show cellRows ((col, line, '\n') :: projectAux (d :: ds) 0 (line + 1)) =
            line :: cellRows (projectAux (d :: ds) 0 (line + 1)) from rfl]
        rw [List.toFinset_cons, ih hne 0 (line + 1), hdl, List.count_cons]
        have hb : ((('\n' : Char) == '\n') : Bool) = true := by decide
        rw [hb, if_pos rfl]
        ext n
        simp only [Finset.mem_insert, Finset.mem_Icc]
        omega
      · rw [projectAux, if_neg hc]
        rw [show cellRows ((col, line, c) :: projectAux (d :: ds) (col + 1) line) =
            line :: cellRows (projectAux (d :: ds) (col + 1) line) from rfl]
        rw [List.toFinset_cons, ih hne (col + 1) line, hdl, List.count_cons]
        have hcb : ((c == '\n') : Bool) = false := by simpa using hc
        rw [hcb]
        ext n
        simp only [Finset.mem_insert, Finset.mem_Icc, Bool.false_eq_true, if_false]
        omega

theorem lookup_mem_values {reg : Registry} {name : List Char} {ed : BufferEditor}
    (h : lookupReg reg name = some ed) : ed ∈ regValues reg := by
  induction reg with
  | nil => cases h
  | cons kv rest ih =>
    rw [lookupReg] at h
    rw [regValues_cons]
    by_cases hk : kv.1 = name
    · rw [if_pos hk] at h
      exact List.mem_cons.2 (Or.inl (Option.some_injective _ h).symm)
    · rw [if_neg hk] at h
      exact List.mem_cons.2 (Or.inr (ih h))

theorem entryOrInsert_some {reg : Registry} {name : List Char} {ed : BufferEditor}
    (h : lookupReg reg name = some ed) (dflt : BufferEditor) :
    entryOrInsert reg name dflt = (ed, reg) := by
  rw [entryOrInsert, h]

theorem entryOrInsert_none {reg : Registry} {name : List Char}
    (h : lookupReg reg name = none) (dflt : BufferEditor) :
    entryOrInsert reg name dflt = (dflt, reg ++ [(name, dflt)]) := by
  rw [entryOrInsert, h]

theorem fetchEditor_eq (reg : Registry) (cmd : List Char) :
    fetchEditor reg cmd =
      ((entryOrInsert reg (fetchEditorName reg cmd) newEditor).1,
       fetchEditorName reg cmd,
       (entryOrInsert reg (fetchEditorName reg cmd) newEditor).2) := rfl

theorem regKeys_append (reg l : Registry) :
    regKeys (reg ++ l) = regKeys reg ++ regKeys l := List.map_append _ _ _

theorem regValues_append (reg l : Registry) :
    regValues (reg ++ l) = regValues reg ++ regValues l := List.map_append _ _ _

theorem runCommand_open (reg : Registry) (cmd : List Char) (evs : List KeyEvent)
    (h : firstWord cmd = "open".toList) :
    runCommand reg cmd evs = Except.ok
      (updateReg (fetchEditor reg cmd).2.2 (fetchEditor reg cmd).2.1
        (runEvents (fetchEditor reg cmd).1 initGame evs).1, []) := by
  rw [runCommand, if_pos h]

theorem runCommand_search (reg : Registry) (cmd : List Char) (evs : List KeyEvent)
    (h : firstWord cmd = "search".toList) :
    runCommand reg cmd evs =
      Except.ok (reg, (searchMatches reg cmd).map (fun l => "found: ".toList ++ l)) := by
  have hne : firstWord cmd ≠ "open".toList := by rw [h]; decide
  rw [runCommand, if_neg hne, if_pos h]

theorem runCommand_other (reg : Registry) (cmd : List Char) (evs : List KeyEvent)
    (h1 : firstWord cmd ≠ "open".toList) (h2 : firstWord cmd ≠ "search".toList) :
    runCommand reg cmd evs = Except.ok (reg, [notRecognisedMsg]) := by
  rw [runCommand, if_neg h1, if_neg h2]

theorem regKeys_runCommandState (reg : Registry) (cmd : List Char) (evs : List KeyEvent) :
    regKeys (runCommandState reg cmd evs) = regKeys reg ∨
      ∃ nm, nm ∉ regKeys reg ∧
        regKeys (runCommandState reg cmd evs) = regKeys reg ++ [nm] := by
  by_cases ho : firstWord cmd = "open".toList
  · simp only [runCommandState, runCommand_open reg cmd evs ho]
    rw [regKeys_updateReg, fetchEditor_eq]
    cases hl : lookupReg reg (fetchEditorName reg cmd) with
    | some ed => left; rw [entryOrInsert_some hl]
    | none =>
      right
      refine ⟨fetchEditorName reg cmd, lookupReg_eq_none.1 hl, ?_⟩
      rw [entryOrInsert_none hl]
      rw [regKeys_append]
      rfl
  · by_cases hs : firstWord cmd = "search".toList
    · left; simp only [runCommandState, runCommand_search reg cmd evs hs]
    · left; simp only [runCommandState, runCommand_other reg cmd evs ho hs]

theorem keys_nodup_step (reg : Registry) (cmd : List Char) (evs : List KeyEvent)
    (h : (regKeys reg).Nodup) : (regKeys (runCommandState reg cmd evs)).Nodup := by
  rcases regKeys_runCommandState reg cmd evs with he | ⟨nm, hnm, he⟩
  · rw [he]; exact h
  · rw [he]
    rw [List.nodup_append]
    refine ⟨h, List.nodup_singleton nm, ?_⟩
    intro x hx hx1
    rw [List.mem_singleton] at hx1
    subst hx1
    exact hnm hx

theorem mem_values_entryOrInsert {reg : Registry} {name : List Char}
    {dflt ed : BufferEditor} (h : ed ∈ regValues (entryOrInsert reg name dflt).2) :
    ed ∈ regValues reg ∨ ed = dflt := by
  cases hl : lookupReg reg name with
  | some e2 => rw [entryOrInsert_some hl] at h; left; exact h
  | none =>
    rw [entryOrInsert_none hl] at h
    rw [regValues_append] at h
    rcases List.mem_append.1 h with h | h
    · left; exact h
    · right
      have hv : regValues [(name, dflt)] = [dflt] := rfl
      rw [hv] at h
      exact List.mem_singleton.1 h

theorem entryOrInsert_fst_cases (reg : Registry) (name : List Char) (dflt : BufferEditor) :
    (entryOrInsert reg name dflt).1 ∈ regValues reg ∨
      (entryOrInsert reg name dflt).1 = dflt := by
  cases hl : lookupReg reg name with
  | some ed =>
    left
    rw [entryOrInsert_some hl]
    exact lookup_mem_values hl
  | none => right; rw [entryOrInsert_none hl]

theorem files_none_step (reg : Registry) (cmd : List Char) (evs : List KeyEvent)
    (h : ∀ ed ∈ regValues reg, ed.buffer.file = none) :
    ∀ ed ∈ regValues (runCommandState reg cmd evs), ed.buffer.file = none := by
  by_cases ho : firstWord cmd = "open".toList
  · simp only [runCommandState, runCommand_open reg cmd evs ho]
    intro ed hed
    rcases mem_values_updateReg hed with hmem | heq
    · rw [fetchEditor_eq] at hmem
      rcases mem_values_entryOrInsert hmem with hmem2 | heq2
      · exact h ed hmem2
      · subst heq2; rfl
    · subst heq
      rw [runEvents_file]
      rw [fetchEditor_eq]
      rcases entryOrInsert_fst_cases reg (fetchEditorName reg cmd) newEditor with hmem2 | heq2
      · exact h _ hmem2
      · rw [heq2]; rfl
  · by_cases hs : firstWord cmd = "search".toList
    · simp only [runCommandState, runCommand_search reg cmd evs hs]
      exact h
    · simp only [runCommandState, runCommand_other reg cmd evs ho hs]
      exact h

/-! ## Claim theorems -/

/-- C1: at the failing input — command `search foo` over the registry
`{"a": "foo\nbar", "b": "barfoo\n"}` — the slice `&cmd[first_word.len() - 1..]`
makes the search term `"h foo"` rather than `"foo"`, so the dispatcher prints
no matches and leaves the registry unchanged, whereas the lines containing the
intended term `"foo"` are exactly `"foo"` and `"barfoo"`. -/
theorem search_slice_bug_eval :
    searchTermOf ("search foo".toList) = "h foo".toList ∧
    searchMatches regC1 ("search foo".toList) = [] ∧
    runCommandOut regC1 ("search foo".toList) [] = [] ∧
    runCommandState regC1 ("search foo".toList) [] = regC1 ∧
    (regValues regC1).flatMap
      (fun ed =>
        (rustLines ed.buffer.text).filter (fun line => containsSub line ("foo".toList))) =
      ["foo".toList, "barfoo".toList] := by
  decide

/-- C2 (counterexample): the text `"\n"` contains exactly one line terminator,
but its projection writes the terminator into row 0 and nothing into row 1,
so the cell map spans the single row 0, not rows 0..1. -/
theorem project_rows_claim_cex :
    ¬ ((cellRows (Buffer.chunkmapFromTextarea (Buffer.mk ("\n".toList) none))).toFinset =
        Finset.range ((("\n".toList).count '\n') + 1)) := by
  decide

/-- C2 (amended): for every nonempty buffer text that does not end in a line
terminator and contains exactly `k` line terminators, the projected cell map
spans exactly the `k + 1` row indices 0..k.  (A trailing terminator is written
into the row before the increment, so a text ending in `'\n'` spans one row
fewer than the claim states; the empty text spans no rows.) -/
theorem project_rows_amended (b : Buffer) (h1 : b.text ≠ [])
    (h2 : b.text.getLast? ≠ some '\n') :
    (cellRows b.chunkmapFromTextarea).toFinset = Finset.range (b.text.count '\n' + 1) := by
  have hl : b.text.dropLast ++ [b.text.getLast h1] = b.text := List.dropLast_append_getLast h1
  have hlast : b.text.getLast h1 ≠ '\n' := fun hcc =>
    h2 (by rw [List.getLast?_eq_getLast b.text h1, hcc])
  have hx : [b.text.getLast h1].count '\n' = 0 := by
    rw [List.count_cons, List.count_nil]
    have hb : ((b.text.getLast h1 == '\n') : Bool) = false := by simpa using hlast
    rw [hb]
    simp
  have hcount : b.text.dropLast.count '\n' = b.text.count '\n' := by
    conv_rhs => rw [← hl]
    rw [List.count_append, hx]
    omega
  rw [show b.chunkmapFromTextarea = projectAux b.text 0 0 from rfl]
  rw [projectAux_rows b.text h1 0 0, hcount]
  ext n
  simp only [Finset.mem_Icc, Finset.mem_range]
  omega

/-- C2 (witness): the amended theorem applied to the text `"ab\ncd"`. -/
theorem project_rows_amended_w :
    (cellRows (Buffer.mk ("ab\ncd".toList) none).chunkmapFromTextarea).toFinset =
      Finset.range ((("ab\ncd".toList).count '\n') + 1) :=
  project_rows_amended (Buffer.mk ("ab\ncd".toList) none) (by decide) (by decide)

/-- C3: anonymous-name synthesis (run, as in `fetch_editor`, with enough fuel
for one probe per existing key plus one) never returns a name that is already
a key, and consequently the registry keys remain pairwise distinct across
every sequence of commands — named opens, anonymous opens and everything
else. -/
theorem registry_keys_unique :
    (∀ (keys : List (List Char)) (u : Nat), synthName keys u (keys.length + 1) ∉ keys) ∧
    (∀ (reg : Registry) (cmds : List (List Char × List KeyEvent)),
      (regKeys reg).Nodup → (regKeys (runCommands reg cmds)).Nodup) := by
  constructor
  · intro keys u
    obtain ⟨n, _, h2, h3, _⟩ := synthName_spec keys u
    rw [h2]
    exact h3
  · intro reg cmds
    induction cmds generalizing reg with
    | nil => exact fun h => h
    | cons c rest ih =>
      intro h
      rw [runCommands]
      exact ih _ (keys_nodup_step reg c.1 c.2 h)

/-- C3 (witness): with `buffer_0` and `buffer_1` pre-occupied, synthesis
avoids the existing keys, and two anonymous opens keep all keys distinct. -/
theorem registry_keys_unique_w :
    synthName (regKeys regPre) 0 ((regKeys regPre).length + 1) ∉ regKeys regPre ∧
    (regKeys (runCommands regPre
      [("open".toList, [KeyEvent.esc]), ("open".toList, [KeyEvent.esc])])).Nodup :=
  ⟨registry_keys_unique.1 (regKeys regPre) 0,
   registry_keys_unique.2 regPre
     [("open".toList, [KeyEvent.esc]), ("open".toList, [KeyEvent.esc])] (by decide)⟩

/-- C4: `push_char` followed by `pop_char` returns exactly the pushed
character and restores the buffer to its previous state (LIFO round trip). -/
theorem push_pop_roundtrip (b : Buffer) (c : Char) :
    (b.pushChar c).popChar = (some c, b) := by
  cases b with
  | mk t f =>
    simp only [Buffer.pushChar, Buffer.popChar, List.getLast?_concat, List.dropLast_concat]

/-- C5: the Control+'f' handler pops characters until a line terminator has
been removed or the buffer is empty: if the text has no terminator the buffer
is emptied, otherwise the text before the last terminator remains; in
particular `"ab\ncd"` becomes `"ab"`. -/
theorem clear_line_spec_thm :
    (∀ (ed : BufferEditor) (g : GameState),
      ((onEvent ed g KeyEvent.ctrlF).1.buffer.text = [] ∧ ed.buffer.text.count '\n' = 0) ∨
        (∃ p s, ed.buffer.text = p ++ '\n' :: s ∧ s.count '\n' = 0 ∧
          (onEvent ed g KeyEvent.ctrlF).1.buffer.text = p)) ∧
    (onEvent (BufferEditor.mk (Buffer.mk ("ab\ncd".toList) none)) initGame
        KeyEvent.ctrlF).1.buffer.text = "ab".toList := by
  constructor
  · intro ed g
    have htext : (onEvent ed g KeyEvent.ctrlF).1.buffer.text =
        (clearLineAux ed.buffer.text.reverse).reverse := rfl
    rcases clearLineAux_spec ed.buffer.text.reverse with ⟨h1, h2⟩ | ⟨t, q, h1, h2, h3⟩
    · left
      refine ⟨by rw [htext, h1]; rfl, ?_⟩
      rw [← List.count_reverse]
      exact h2
    · right
      refine ⟨q.reverse, t.reverse, ?_, ?_, by rw [htext, h3]⟩
      · have hq := congrArg List.reverse h1
        rw [List.reverse_reverse] at hq
        rw [hq]
        simp [List.reverse_append]
      · rw [List.count_reverse]
        exact h2
  · decide

/-- C6: `entry(name).or_insert(..)` returns the existing session untouched
when the name is a key and creates a fresh empty session otherwise; in the
scenario, `open notes` followed by typing "hi", Enter, "there", Escape leaves
`notes` holding `"hi\nthere"`, and the content survives a re-open. -/
theorem fetch_or_create_spec :
    (∀ (reg : Registry) (name : List Char) (ed : BufferEditor),
      lookupReg reg name = some ed → entryOrInsert reg name newEditor = (ed, reg)) ∧
    (∀ (reg : Registry) (name : List Char),
      lookupReg reg name = none →
        entryOrInsert reg name newEditor = (newEditor, reg ++ [(name, newEditor)])) ∧
    (lookupReg notesReg1 ("notes".toList)).map (fun ed => ed.buffer.text) =
      some ("hi\nthere".toList) ∧
    (lookupReg notesReg2 ("notes".toList)).map (fun ed => ed.buffer.text) =
      some ("hi\nthere".toList) := by
  refine ⟨?_, ?_, by decide, by decide⟩
  · intro reg name ed h
    exact entryOrInsert_some h newEditor
  · intro reg name h
    exact entryOrInsert_none h newEditor

/-- C6 (witness): the hit and miss cases of fetch-or-create at concrete
registries. -/
theorem fetch_or_create_spec_w :
    entryOrInsert regPre ("buffer_0".toList) newEditor = (newEditor, regPre) ∧
    entryOrInsert [] ("notes".toList) newEditor =
      (newEditor, [] ++ [(("notes".toList), newEditor)]) :=
  ⟨fetch_or_create_spec.1 regPre ("buffer_0".toList) newEditor (by decide),
   fetch_or_create_spec.2.1 [] ("notes".toList) (by decide)⟩

/-- C7: the move-up handler leaves a zero scroll offset at zero, decrements a
positive offset by one, and no event can make a nonnegative offset negative. -/
theorem scroll_up_spec :
    (∀ (ed : BufferEditor) (g : GameState), g.viewportY = 0 →
      (onEvent ed g KeyEvent.up).2.viewportY = 0) ∧
    (∀ (ed : BufferEditor) (g : GameState), 0 < g.viewportY →
      (onEvent ed g KeyEvent.up).2.viewportY = g.viewportY - 1) ∧
    (∀ (ed : BufferEditor) (g : GameState) (e : KeyEvent), 0 ≤ g.viewportY →
      0 ≤ (onEvent ed g e).2.viewportY) := by
  have hup : ∀ (ed : BufferEditor) (g : GameState),
      (onEvent ed g KeyEvent.up).2.viewportY =
        if 0 < g.viewportY then g.viewportY - 1 else g.viewportY := fun ed g => rfl
  refine ⟨?_, ?_, ?_⟩
  · intro ed g h
    rw [hup, h]
    norm_num
  · intro ed g h
    rw [hup, if_pos h]
  · intro ed g e h
    cases e <;> dsimp only [onEvent] <;> omega

/-- C7 (witness): move-up at offsets 0 and 3, and move-down from 0. -/
theorem scroll_up_spec_w :
    (onEvent newEditor initGame KeyEvent.up).2.viewportY = 0 ∧
    (onEvent newEditor (GameState.mk 3 false []) KeyEvent.up).2.viewportY = 3 - 1 ∧
    0 ≤ (onEvent newEditor initGame KeyEvent.down).2.viewportY :=
  ⟨scroll_up_spec.1 newEditor initGame rfl,
   scroll_up_spec.2.1 newEditor (GameState.mk 3 false []) (by decide),
   scroll_up_spec.2.2 newEditor initGame KeyEvent.down (by decide)⟩

/-- C8 (amended): a command whose first word is neither `open` nor `search`
returns `Ok` with the registry unchanged and prints exactly the fixed message
`"Command not recognised"` (the source's literal; the claim's quoted
`"command not recognized"` differs in case and spelling). -/
theorem unrecognised_cmd_spec (reg : Registry) (cmd : List Char) (evs : List KeyEvent)
    (h1 : firstWord cmd ≠ "open".toList) (h2 : firstWord cmd ≠ "search".toList) :
    runCommand reg cmd evs = Except.ok (reg, [("Command not recognised".toList)]) :=
  runCommand_other reg cmd evs h1 h2

/-- C8 (witness): the command `zzz`. -/
theorem unrecognised_cmd_spec_w :
    runCommand [] ("zzz".toList) [] =
      Except.ok ([], [("Command not recognised".toList)]) :=
  unrecognised_cmd_spec [] ("zzz".toList) [] (by decide) (by decide)

/-- C8 (counterexample): on `zzz` the dispatcher prints the literal
`"Command not recognised"`, which is not the claim's quoted
`"command not recognized"`. -/
theorem not_recognised_msg_cex :
    runCommandOut [] ("zzz".toList) [] = [("Command not recognised".toList)] ∧
    runCommandOut [] ("zzz".toList) [] ≠ [("command not recognized".toList)] := by
  constructor
  · decide
  · decide

/-- C9: if every session's buffer has no storage identifier, then after any
sequence of commands every session's buffer still has none — commands only
ever insert `Buffer::new(None)` and keystrokes never touch the `file` field. -/
theorem file_none_invariant (reg : Registry) (cmds : List (List Char × List KeyEvent))
    (h : ∀ ed ∈ regValues reg, ed.buffer.file = none) :
    ∀ ed ∈ regValues (runCommands reg cmds), ed.buffer.file = none := by
  induction cmds generalizing reg with
  | nil => exact h
  | cons c rest ih =>
    rw [runCommands]
    exact ih _ (files_none_step reg c.1 c.2 h)

/-- C9 (witness): after an anonymous open on the empty registry, every stored
buffer reports no storage identifier. -/
theorem file_none_invariant_w :
    (regValues (runCommands [] [(("open".toList), [KeyEvent.esc])])).all
      (fun ed => ed.buffer.file == none) = true := by
  rw [List.all_eq_true]
  intro ed hed
  have h := file_none_invariant [] [(("open".toList), [KeyEvent.esc])] (by decide) ed hed
  simp [h]

/-- C10: an anonymous open (verb `open`, no second token) always appends the
key `buffer_<n>` for the least `n ≥ 0` whose name is not currently a key —
the probe counter is re-created at 0 inside each `run_command` call, so the
outcome depends only on the current registry. -/
theorem anon_name_lowest_free (reg : Registry) (cmd : List Char) (evs : List KeyEvent)
    (h1 : firstWord cmd = "open".toList) (h2 : (words cmd)[1]? = none) :
    ∃ n, anonName n ∉ regKeys reg ∧ (∀ m, m < n → anonName m ∈ regKeys reg) ∧
      regKeys (runCommandState reg cmd evs) = regKeys reg ++ [anonName n] := by
  have hlen : (regKeys reg).length = reg.length := List.length_map _ _
  obtain ⟨n, _, hsy, hfree, hmin⟩ := synthName_spec (regKeys reg) 0
  rw [hlen] at hsy
  have hname : fetchEditorName reg cmd = anonName n := by
    rw [fetchEditorName, h2]
    exact hsy
  refine ⟨n, hfree, fun m hm => hmin m (Nat.zero_le m) hm, ?_⟩
  simp only [runCommandState, runCommand_open reg cmd evs h1]
  rw [regKeys_updateReg, fetchEditor_eq]
  dsimp only
  rw [hname]
  have hlook : lookupReg reg (anonName n) = none := lookupReg_eq_none.2 hfree
  rw [entryOrInsert_none hlook, regKeys_append]
  rfl

/-- C10 (witness): with `buffer_0` and `buffer_1` occupied, the anonymous
open appends the least free name. -/
theorem anon_name_lowest_free_w :
    ∃ n, anonName n ∉ regKeys regPre ∧ (∀ m, m < n → anonName m ∈ regKeys regPre) ∧
      regKeys (runCommandState regPre ("open".toList) [KeyEvent.esc]) =
        regKeys regPre ++ [anonName n] :=
  anon_name_lowest_free regPre ("open".toList) [KeyEvent.esc] (by decide) (by decide)
